import Mathlib

/-!
Verification development for the sqlp repository (github.com/mitranim/sqlp),
a lossless tokenizer/parser pair for SQL text with parameter placeholders
and delimited sub-expressions.

The repository contains several revisions of the same design.  This file
embeds:

* the AST node model (`Node`), shared by all revisions
  (src/sqlp_tokenizer.go second half, src/unnamed/part_000);
* the `Node`-emitting tokenizer of src/tokenizer.go (`Sqlp.node`,
  `Sqlp.next`, and the `maybe*` helpers), which on an unterminated quote
  or block comment silently returns the remainder;
* the recursive-descent parser of src/unnamed/part_002 (`Sqlp.parseGo`,
  `Sqlp.parseBetween`, `Sqlp.Parse`), written with an explicit fuel
  argument so that the embedding is executable; fuel `length + 1` is
  proved sufficient;
* the `Token`-based tokenizer's quoted-span scanner of
  src/sqlp_tokenizer.go (`SqlpT.maybeStringBetweenBytes`), which fails
  with an unterminated-quote error instead of returning the remainder;
* the traversal, copy and leaf-lookup utilities of src/unnamed/part_002
  (`TraverseLeaves` as `visitsList`, `CopyDeep` as a heap-level
  `copySlice`, `FirstLeaf`, `LastLeaf`).

Strings are modelled as `List Char`.  The Go code walks the source byte
by byte, but every byte it compares against is ASCII and the cursor always
sits on a UTF-8 rune boundary (it advances by whole runes except when an
ASCII byte or ASCII run was just matched), so per-character processing is
an exact model: the first byte of a multi-byte rune is >= 0xC2 and never
matches any of the ASCII comparisons or charsets.  The Go cursor into the
source is represented by the unconsumed remainder of the char list;
`self.from(start)` is the span consumed since `start`.
-/

namespace Sqlp

/-- Source text, as a list of characters. -/
abbrev Str := List Char

/-- The grave-quote character (0x60). -/
def graveChar : Char := Char.ofNat 96

/-- Opening brace character (0x7b). -/
def braceOpenChar : Char := Char.ofNat 123

/-- Closing brace character (0x7d). -/
def braceCloseChar : Char := Char.ofNat 125

/-- utils.go `byteMapWhitespace`: the bytes of " \n\r\t\v". -/
def isWhitespaceByte (c : Char) : Bool :=
  c = ' ' || c = '\n' || c = '\r' || c = '\t' || c = Char.ofNat 11

/-- utils.go `byteMapDigitsDecimal`: ASCII decimal digits. -/
def isDigitByte (c : Char) : Bool :=
  '0' ≤ c && c ≤ '9'

/-- utils.go `byteMapIdentifierStart`: ASCII letters and underscore. -/
def isIdentStartByte (c : Char) : Bool :=
  ('A' ≤ c && c ≤ 'Z') || ('a' ≤ c && c ≤ 'z') || c = '_'

/-- utils.go `byteMapIdentifier`: letters, underscore, digits. -/
def isIdentByte (c : Char) : Bool :=
  isIdentStartByte c || isDigitByte c

/-- utils.go `prefixDigits`: the maximal leading run of decimal digits. -/
def prefixDigits (s : Str) : Str :=
  s.takeWhile isDigitByte

/-- utils.go `prefixIdent`: the maximal leading identifier
(letter/underscore first, then letters/underscores/digits), or empty. -/
def prefixIdent : Str → Str
  | [] => []
  | c :: tl => if isIdentStartByte c then c :: tl.takeWhile isIdentByte else []

/-- Go `strings.HasPrefix`, on char lists. -/
def startsWith (p s : Str) : Bool :=
  match p with
  | [] => true
  | pc :: ptl =>
    match s with
    | [] => false
    | c :: tl => pc = c && startsWith ptl tl

/--
AST node (src/sqlp_tokenizer.go `Node` and the concrete node types).
Go uses one interface and many concrete types; the embedding is the
corresponding closed variant.  `seq` is `Nodes` (a bare sequence), and
`null` is a nil `Node` interface value (Go slices of nodes may hold nil;
serialization skips nil entries).
-/
inductive Node where
  | text (s : Str)
  | whitespace (s : Str)
  | quoteSingle (s : Str)
  | quoteDouble (s : Str)
  | quoteGrave (s : Str)
  | commentLine (s : Str)
  | commentBlock (s : Str)
  | doubleColon
  | ordinalParam (n : Nat)
  | namedParam (s : Str)
  | parenOpen
  | parenClose
  | bracketOpen
  | bracketClose
  | braceOpen
  | braceClose
  | parens (xs : List Node)
  | brackets (xs : List Node)
  | braces (xs : List Node)
  | seq (xs : List Node)
  | null

mutual

/--
Serialization of a single node: the `Append`/`String` methods of the node
types (src/sqlp_tokenizer.go).  Quotes re-add their delimiters, comments
their prefixes, composites their enclosing pair; `NodeOrdinalParam`
appends `$` followed by the decimal digits of its value.  A nil node
contributes nothing when serialized inside a sequence (Go `Nodes.Append`
skips nil entries).  The `whitespace` arm is modelled from the spec: the
declaration of `NodeWhitespace` (added in 0.1.4) is not among the source
files, only its uses; per the spec a whitespace leaf reproduces its
exact source span, which the repository's round-trip tests confirm.
-/
def nodeStr : Node → Str
  | .text s => s
  | .whitespace s => s
  | .quoteSingle s => '\'' :: s ++ ['\'']
  | .quoteDouble s => '"' :: s ++ ['"']
  | .quoteGrave s => graveChar :: s ++ [graveChar]
  | .commentLine s => '-' :: '-' :: s
  | .commentBlock s => '/' :: '*' :: s ++ ['*', '/']
  | .doubleColon => [':', ':']
  | .ordinalParam n => '$' :: Nat.toDigits 10 n
  | .namedParam s => ':' :: s
  | .parenOpen => ['(']
  | .parenClose => [')']
  | .bracketOpen => ['[']
  | .bracketClose => [']']
  | .braceOpen => [braceOpenChar]
  | .braceClose => [braceCloseChar]
  | .parens xs => '(' :: nodesStr xs ++ [')']
  | .brackets xs => '[' :: nodesStr xs ++ [']']
  | .braces xs => braceOpenChar :: nodesStr xs ++ [braceCloseChar]
  | .seq xs => nodesStr xs
  | .null => []

/-- Serialization of a sequence (`Nodes.Append`): concatenation of the
serializations of the elements. -/
def nodesStr : List Node → Str
  | [] => []
  | n :: tl => nodeStr n ++ nodesStr tl

end

mutual

/-- Structural equality of nodes, Go's `==` on comparable node values
(used by `parseBetween`'s `node == close` check). -/
def nodeBEq : Node → Node → Bool
  | .text a, .text b => a = b
  | .whitespace a, .whitespace b => a = b
  | .quoteSingle a, .quoteSingle b => a = b
  | .quoteDouble a, .quoteDouble b => a = b
  | .quoteGrave a, .quoteGrave b => a = b
  | .commentLine a, .commentLine b => a = b
  | .commentBlock a, .commentBlock b => a = b
  | .doubleColon, .doubleColon => true
  | .ordinalParam a, .ordinalParam b => a = b
  | .namedParam a, .namedParam b => a = b
  | .parenOpen, .parenOpen => true
  | .parenClose, .parenClose => true
  | .bracketOpen, .bracketOpen => true
  | .bracketClose, .bracketClose => true
  | .braceOpen, .braceOpen => true
  | .braceClose, .braceClose => true
  | .parens a, .parens b => nodesBEq a b
  | .brackets a, .brackets b => nodesBEq a b
  | .braces a, .braces b => nodesBEq a b
  | .seq a, .seq b => nodesBEq a b
  | .null, .null => true
  | _, _ => false

/-- Structural equality of node sequences. -/
def nodesBEq : List Node → List Node → Bool
  | [], [] => true
  | a :: as, b :: bs => nodeBEq a b && nodesBEq as bs
  | _, _ => false

end

/--
Errors that can escape `Parse` (src/unnamed/part_002).  The parser's two
panic sites are `onNode` ("unexpected closing %q", carrying the offending
token) and `parseBetween` ("missing closing %q", carrying the awaited
closing token); in addition `mustParseNumber` (utils.go) panics with a
`strconv` range error when an ordinal parameter's digits overflow int64.
No error carries any position information.
-/
inductive Err where
  | unexpectedClosing (node : Node)
  | missingClosing (close : Node)
  | intRange (digits : Str)

/-- Numeric value of a digit run. -/
def digitsVal (s : Str) : Nat :=
  s.foldl (fun acc c => acc * 10 + (c.toNat - 48)) 0

/-- Largest int64 value; `strconv.ParseInt(_, 10, 64)` fails above it. -/
def maxInt64 : Nat := 9223372036854775807

/-- utils.go `mustParseNumber`: parse a (non-empty, all-decimal) digit run
as int64; panics (here: error) when the value exceeds int64 range. -/
def mustParseNumber (digits : Str) : Except Err Nat :=
  if digitsVal digits ≤ maxInt64 then .ok (digitsVal digits)
  else .error (.intRange digits)

/-- tokenizer.go `maybeWhitespace`: the loop skipping whitespace bytes.
Returns the (non-empty) run and the remainder, or `none` when the cursor
did not advance. -/
def maybeWhitespace (s : Str) : Option (Str × Str) :=
  let run := s.takeWhile isWhitespaceByte
  if run.isEmpty then none else some (run, s.dropWhile isWhitespaceByte)

/-- The scan loop of tokenizer.go `maybeStringBetweenBytes`: consume up
to and including the closing byte, returning the body and the remainder.
If input ends first, the whole remainder becomes the body (the silent
fallback of that revision). -/
def scanQuote (suffix : Char) : Str → Str × Str
  | [] => ([], [])
  | c :: tl =>
    if c = suffix then ([], tl)
    else
      let (body, rest) := scanQuote suffix tl
      (c :: body, rest)

/-- tokenizer.go `maybeStringBetweenBytes`: opening byte, body, closing
byte; on EOF before the closing byte it silently returns the remainder as
the body. `none` when the opening byte is not next. -/
def maybeStringBetweenBytes (prefixByte suffixByte : Char) : Str → Option (Str × Str)
  | [] => none
  | c :: tl => if c = prefixByte then some (scanQuote suffixByte tl) else none

/-- The scan loop of tokenizer.go `maybeStringBetween`: consume up to and
including the closing string; on EOF the whole remainder becomes the
body. -/
def scanBlock (suffix : Str) : Str → Str × Str
  | [] => ([], [])
  | c :: tl =>
    if startsWith suffix (c :: tl) then ([], (c :: tl).drop suffix.length)
    else
      let (body, rest) := scanBlock suffix tl
      (c :: body, rest)

/-- tokenizer.go `maybeStringBetween` (used for block comments). -/
def maybeStringBetween (pre suf s : Str) : Option (Str × Str) :=
  if startsWith pre s then some (scanBlock suf (s.drop pre.length)) else none

/-- The scan loop of tokenizer.go `maybeCommentLine`: consume up to and
including a line terminator (CRLF, LF, or CR, tried in that order by
`skippedNewline`); the terminator is part of the consumed span. -/
def scanLine : Str → Str × Str
  | [] => ([], [])
  | c :: tl =>
    if c = '\r' then
      match tl with
      | c2 :: tl2 => if c2 = '\n' then (['\r', '\n'], tl2) else (['\r'], tl)
      | [] => (['\r'], [])
    else if c = '\n' then (['\n'], tl)
    else
      let (body, rest) := scanLine tl
      (c :: body, rest)

/-- tokenizer.go `maybeCommentLine`: `--` then everything up to and
including the line terminator (`self.from(start)` is taken after
`skippedNewline` advanced past the terminator). -/
def maybeCommentLine (s : Str) : Option (Str × Str) :=
  if startsWith ['-', '-'] s then some (scanLine (s.drop 2)) else none

/-- tokenizer.go `maybeDoubleColon`: skip a literal `::` if present. -/
def maybeDoubleColon (s : Str) : Option Str :=
  if startsWith [':', ':'] s then some (s.drop 2) else none

/-- tokenizer.go `maybeOrdinalParam`: `$` followed by one or more decimal
digits, parsed via `mustParseNumber` (which can fail with a range error). -/
def maybeOrdinalParam : Str → Except Err (Option (Nat × Str))
  | [] => .ok none
  | c :: tl =>
    if c = '$' then
      let digits := prefixDigits tl
      if digits.isEmpty then .ok none
      else
        match mustParseNumber digits with
        | .ok n => .ok (some (n, tl.drop digits.length))
        | .error e => .error e
    else .ok none

/-- tokenizer.go `maybeNamedParam`: `:` followed by an identifier. -/
def maybeNamedParam : Str → Option (Str × Str)
  | [] => none
  | c :: tl =>
    if c = ':' then
      let ident := prefixIdent tl
      if ident.isEmpty then none else some (ident, tl.drop ident.length)
    else none

/--
tokenizer.go `Tokenizer.node`: try each token rule in order, returning
the first that consumes input.  The single-delimiter rules
(`maybeParenOpen` .. `maybeBraceClose`) are the final single-byte
checks.  The result is `Except` because `maybeOrdinalParam` can fail.
-/
def node (s : Str) : Except Err (Option (Node × Str)) :=
  match maybeWhitespace s with
  | some (run, rest) => .ok (some (.whitespace run, rest))
  | none =>
  match maybeStringBetweenBytes '\'' '\'' s with
  | some (body, rest) => .ok (some (.quoteSingle body, rest))
  | none =>
  match maybeStringBetweenBytes '"' '"' s with
  | some (body, rest) => .ok (some (.quoteDouble body, rest))
  | none =>
  match maybeStringBetweenBytes graveChar graveChar s with
  | some (body, rest) => .ok (some (.quoteGrave body, rest))
  | none =>
  match maybeCommentLine s with
  | some (body, rest) => .ok (some (.commentLine body, rest))
  | none =>
  match maybeStringBetween ['/', '*'] ['*', '/'] s with
  | some (body, rest) => .ok (some (.commentBlock body, rest))
  | none =>
  match maybeDoubleColon s with
  | some rest => .ok (some (.doubleColon, rest))
  | none =>
  match maybeOrdinalParam s with
  | .error e => .error e
  | .ok (some (n, rest)) => .ok (some (.ordinalParam n, rest))
  | .ok none =>
  match maybeNamedParam s with
  | some (ident, rest) => .ok (some (.namedParam ident, rest))
  | none =>
  match s with
  | [] => .ok none
  | c :: tl =>
    if c = '(' then .ok (some (.parenOpen, tl))
    else if c = ')' then .ok (some (.parenClose, tl))
    else if c = '[' then .ok (some (.bracketOpen, tl))
    else if c = ']' then .ok (some (.bracketClose, tl))
    else if c = braceOpenChar then .ok (some (.braceOpen, tl))
    else if c = braceCloseChar then .ok (some (.braceClose, tl))
    else .ok none

/-- The loop of tokenizer.go `Tokenizer.text`: accumulate characters
until a structured token would match at the current position (the
tokenizer then rewinds and stops) or input ends.  Returns the
accumulated text and the remainder. -/
def textScan : Str → Except Err (Str × Str)
  | [] => .ok ([], [])
  | c :: tl =>
    match node (c :: tl) with
    | .error e => .error e
    | .ok (some _) => .ok ([], c :: tl)
    | .ok none =>
      match textScan tl with
      | .error e => .error e
      | .ok (txt, rest) => .ok (c :: txt, rest)

/-- tokenizer.go `Tokenizer.Next`: the next token, or `none` at EOF.
A structured token if one matches, otherwise a text run. -/
def next (s : Str) : Except Err (Option (Node × Str)) :=
  match node s with
  | .error e => .error e
  | .ok (some r) => .ok (some r)
  | .ok none =>
    match s with
    | [] => .ok none
    | _ :: _ =>
      match textScan s with
      | .error e => .error e
      | .ok (txt, rest) => .ok (some (.text txt, rest))

/-- The composite kinds a matching open delimiter introduces
(part_002 `parseParens` / `parseBrackets` / `parseBraces`). -/
inductive OpenKind where
  | parens
  | brackets
  | braces

/-- The closing token awaited for an open delimiter. -/
def closeOf : OpenKind → Node
  | .parens => .parenClose
  | .brackets => .bracketClose
  | .braces => .braceClose

/-- The composite node wrapped around the finished child sequence. -/
def wrapOf : OpenKind → List Node → Node
  | .parens, xs => .parens xs
  | .brackets, xs => .brackets xs
  | .braces, xs => .braces xs

/-- The case split of part_002 `onNode`: an opening delimiter starts a
child composite, a closing delimiter is the "unexpected closing" panic,
anything else is appended to the current sequence. -/
inductive Dispatch where
  | openComposite (kind : OpenKind)
  | unexpected
  | plain

/-- part_002 `onNode`'s switch on the node type. -/
def dispatch : Node → Dispatch
  | .parenOpen => .openComposite .parens
  | .bracketOpen => .openComposite .brackets
  | .braceOpen => .openComposite .braces
  | .parenClose => .unexpected
  | .bracketClose => .unexpected
  | .braceClose => .unexpected
  | _ => .plain

mutual

/--
part_002 `parse`: pull tokens until EOF, handling each via `onNode`
(whose switch is `dispatch`, inlined here at its two call sites so that
the recursion is structural on the fuel).  `none` means the fuel ran
out; `parse_fuel_sufficient` proves `length + 1` fuel always suffices,
which is why the Go loop (which has no fuel) terminates.
-/
def parseGo : Nat → Str → List Node → Option (Except Err (List Node))
  | 0, _, _ => none
  | fuel + 1, s, nodes =>
    match next s with
    | .error e => some (.error e)
    | .ok none => some (.ok nodes)
    | .ok (some (n, s1)) =>
      match dispatch n with
      | .unexpected => some (.error (.unexpectedClosing n))
      | .plain => parseGo fuel s1 (nodes ++ [n])
      | .openComposite k =>
        match parseBetween fuel (closeOf k) s1 [] with
        | none => none
        | some (.error e) => some (.error e)
        | some (.ok (children, s2)) => parseGo fuel s2 (nodes ++ [wrapOf k children])

/--
part_002 `parseBetween`: pull tokens until the awaited closing token
(`node == close`, checked before `onNode`), returning the collected
child sequence and the remainder; EOF first is the "missing closing"
panic.
-/
def parseBetween : Nat → Node → Str → List Node → Option (Except Err (List Node × Str))
  | 0, _, _, _ => none
  | fuel + 1, close, s, nodes =>
    match next s with
    | .error e => some (.error e)
    | .ok none => some (.error (.missingClosing close))
    | .ok (some (n, s1)) =>
      if nodeBEq n close then some (.ok (nodes, s1))
      else
        match dispatch n with
        | .unexpected => some (.error (.unexpectedClosing n))
        | .plain => parseBetween fuel close s1 (nodes ++ [n])
        | .openComposite k =>
          match parseBetween fuel (closeOf k) s1 [] with
          | none => none
          | some (.error e) => some (.error e)
          | some (.ok (children, s2)) =>
            parseBetween fuel close s2 (nodes ++ [wrapOf k children])

end

/--
part_002 `Parse`: run the parser over the whole input.  Fuel
`length + 1` is sufficient (`parse_fuel_sufficient`), so the fallback
arm is dead code; it mirrors nothing in the source.
-/
def Parse (s : Str) : Except Err (List Node) :=
  match parseGo (s.length + 1) s [] with
  | some r => r
  | none => .error (.missingClosing .null)

/-- `Parse`, with a failed parse collapsed to the empty sequence (used
only to state theorems about the trees of accepted inputs). -/
def ParseOk (s : Str) : List Node :=
  match Parse s with
  | .ok nodes => nodes
  | .error _ => []

mutual

/-- part_002 `NodeTraverseLeaves`, instantiated with a callback that
records its argument: nil is skipped, the four collection kinds recurse,
and every other node is handed to the callback.  The result is the
sequence of nodes the callback is invoked on, in invocation order. -/
def nodeVisits : Node → List Node
  | .null => []
  | .seq xs => visitsList xs
  | .parens xs => visitsList xs
  | .brackets xs => visitsList xs
  | .braces xs => visitsList xs
  | n => [n]

/-- part_002 `TraverseLeaves` with a recording callback: visit each
element of the sequence in order. -/
def visitsList : List Node → List Node
  | [] => []
  | n :: tl => nodeVisits n ++ visitsList tl

end

/-- A leaf node: any node that is not nil and not one of the four
collection kinds (`Nodes`, `NodeParens`, `NodeBrackets`, `NodeBraces`)
that the traversal utilities recurse into. -/
def isLeafNode : Node → Bool
  | .null => false
  | .seq _ => false
  | .parens _ => false
  | .brackets _ => false
  | .braces _ => false
  | _ => true

mutual

/-- part_002 `FirstLeaf`: the first leaf of a collection, found by
descending into first elements only; nil (Go `return nil`) for an empty
collection. -/
def FirstLeaf : List Node → Node
  | [] => .null
  | n :: _ => NodeFirstLeaf n

/-- part_002 `NodeFirstLeaf` (via `nodeBy`): recurse into a collection,
return any other node as-is. -/
def NodeFirstLeaf : Node → Node
  | .seq xs => FirstLeaf xs
  | .parens xs => FirstLeaf xs
  | .brackets xs => FirstLeaf xs
  | .braces xs => FirstLeaf xs
  | n => n

end

mutual

/-- part_002 `LastLeaf`: the last leaf of a collection, found by
descending into last elements only; nil for an empty collection. -/
def LastLeaf : List Node → Node
  | [] => .null
  | [n] => NodeLastLeaf n
  | _ :: tl => LastLeaf tl

/-- part_002 `NodeLastLeaf` (via `nodeBy`). -/
def NodeLastLeaf : Node → Node
  | .seq xs => LastLeaf xs
  | .parens xs => LastLeaf xs
  | .brackets xs => LastLeaf xs
  | .braces xs => LastLeaf xs
  | n => n

end

/-!
Heap model for `CopyDeep` (part_002).

In Go, a collection node (`Nodes`, `NodeParens`, `NodeBrackets`,
`NodeBraces`) is a slice: a reference to a mutable array of `Node`
slots.  All other node values (strings, ints, empty structs, nil) are
immutable.  Mutating a tree means assigning into a slot, either directly
(`nodes[i] = x`) or through the `*Node` pointers handed out by the
traversal functions.  To state what `CopyDeep` guarantees about such
mutations we make the slices explicit: a heap is a list of slot arrays,
addressed by index; a stored slot holds either an immutable node value
or a reference to a child slice.
-/

/-- A slot value: an immutable (non-collection) node, a collection node
referencing its child slice by address, or nil. -/
inductive HNode where
  | leaf (n : Node)
  | comp (k : OpenKind) (addr : Nat)
  | seqComp (addr : Nat)
  | hnull

/-- The heap: slice address → array of slots. -/
abbrev Heap := List (List HNode)

/-- Look up the slice stored at an address. -/
def lookup (h : Heap) (a : Nat) : Option (List HNode) :=
  h.get? a

/-- Go `nodes[i] = v` on the slice at address `a`: replace slot `i`.
Out-of-range addresses or indices leave the heap unchanged. -/
def writeSlot (h : Heap) (a i : Nat) (v : HNode) : Heap :=
  match h.get? a with
  | some slots => h.set a (slots.set i v)
  | none => h

/-- Is a node one of the four collection kinds? Collection values are Go
slices and may only be stored in a slot through `comp`/`seqComp`. -/
def isCollection : Node → Bool
  | .seq _ => true
  | .parens _ => true
  | .brackets _ => true
  | .braces _ => true
  | _ => false

mutual

/-- The tree sequence denoted by the slice at an address: follow the
slot references and rebuild the `Node` tree.  The fuel bounds the
reference-chasing depth; on the (acyclic) heaps Go actually builds, any
sufficiently large fuel returns the tree, and `none` means the fuel ran
out or the heap is malformed (dangling address, or a collection node
stored by value). -/
def readSlice : Nat → Heap → Nat → Option (List Node)
  | 0, _, _ => none
  | fuel + 1, h, a =>
    match lookup h a with
    | none => none
    | some slots => readSlots fuel h slots

/-- The trees denoted by an array of slots. -/
def readSlots : Nat → Heap → List HNode → Option (List Node)
  | 0, _, _ => none
  | _ + 1, _, [] => some []
  | fuel + 1, h, x :: xs =>
    match readHNode fuel h x with
    | none => none
    | some n =>
      match readSlots fuel h xs with
      | none => none
      | some ns => some (n :: ns)

/-- The tree denoted by one slot. -/
def readHNode : Nat → Heap → HNode → Option Node
  | 0, _, _ => none
  | _ + 1, _, .leaf n => if isCollection n then none else some n
  | _ + 1, _, .hnull => some .null
  | fuel + 1, h, .comp k a =>
    match readSlice fuel h a with
    | none => none
    | some xs => some (wrapOf k xs)
  | fuel + 1, h, .seqComp a =>
    match readSlice fuel h a with
    | none => none
    | some xs => some (.seq xs)

end

mutual

/--
part_002 `CopyDeep` on the heap: copy the slice at address `a`,
allocating a fresh slice (appended at the end of the heap) whose slots
are deep copies of the original slots.  Go allocates the output slice
before filling it; here it is appended after the children have been
copied, which only renumbers the fresh addresses.  The fuel only bounds
the recursion depth; any sufficiently large fuel gives the same result.
-/
def copySlice : Nat → Heap → Nat → Option (Heap × Nat)
  | 0, _, _ => none
  | fuel + 1, h, a =>
    match lookup h a with
    | none => none
    | some slots =>
      match copySlots fuel h slots with
      | none => none
      | some (h1, out) => some (h1 ++ [out], h1.length)

/-- The `for i := range src` loop of `CopyDeep`: copy each slot. -/
def copySlots : Nat → Heap → List HNode → Option (Heap × List HNode)
  | 0, _, _ => none
  | _ + 1, h, [] => some (h, [])
  | fuel + 1, h, x :: xs =>
    match copyHNode fuel h x with
    | none => none
    | some (h1, x1) =>
      match copySlots fuel h1 xs with
      | none => none
      | some (h2, xs1) => some (h2, x1 :: xs1)

/-- part_002 `NodeCopyDeep`: collection slots are deep-copied, all other
slot values are returned as-is (they are immutable). -/
def copyHNode : Nat → Heap → HNode → Option (Heap × HNode)
  | 0, _, _ => none
  | fuel + 1, h, .comp k a =>
    match copySlice fuel h a with
    | none => none
    | some (h1, a1) => some (h1, .comp k a1)
  | fuel + 1, h, .seqComp a =>
    match copySlice fuel h a with
    | none => none
    | some (h1, a1) => some (h1, .seqComp a1)
  | _ + 1, h, x => some (h, x)

end

end Sqlp

namespace SqlpT

/-- Error raised by the `Token`-based tokenizer of src/sqlp_tokenizer.go:
`[sqlp] expected closing %q, got unexpected EOF`, carrying the closing
delimiter it was looking for. -/
inductive ErrT where
  | unterminatedClose (suffix : Char)

/-- The scan loop of sqlp_tokenizer.go `maybeStringBetweenBytes`:
like the tokenizer.go version, but reaching EOF before the closing byte
is a fatal error (panic) instead of silently returning the remainder. -/
def scanQuoteStrict (suffix : Char) : Sqlp.Str → Except ErrT (Sqlp.Str × Sqlp.Str)
  | [] => .error (.unterminatedClose suffix)
  | c :: tl =>
    if c = suffix then .ok ([], tl)
    else
      match scanQuoteStrict suffix tl with
      | .error e => .error e
      | .ok (body, rest) => .ok (c :: body, rest)

/-- sqlp_tokenizer.go `maybeStringBetweenBytes` (lines 233-246): skip the
opening byte, scan for the closing byte, panic on EOF. `.ok none` when
the opening byte is not next (the cursor does not advance). -/
def maybeStringBetweenBytes (prefixByte suffixByte : Char) :
    Sqlp.Str → Except ErrT (Option (Sqlp.Str × Sqlp.Str))
  | [] => .ok none
  | c :: tl =>
    if c = prefixByte then
      match scanQuoteStrict suffixByte tl with
      | .error e => .error e
      | .ok r => .ok (some r)
    else .ok none

end SqlpT

namespace Sqlp

/-! ## Progress lemmas for the tokenizer -/

theorem startsWith_exists {p s : Str} (h : startsWith p s = true) :
    ∃ t, s = p ++ t := by
  induction p generalizing s with
  | nil => exact ⟨s, rfl⟩
  | cons pc ptl ih =>
    cases s with
    | nil => simp [startsWith] at h
    | cons c tl =>
      simp only [startsWith, Bool.and_eq_true, decide_eq_true_eq] at h
      obtain ⟨rfl, h2⟩ := h
      obtain ⟨t, rfl⟩ := ih h2
      exact ⟨t, rfl⟩

theorem scanQuote_rest_le (q : Char) : ∀ s : Str, (scanQuote q s).2.length ≤ s.length
  | [] => by simp [scanQuote]
  | c :: tl => by
    by_cases hc : c = q
    · simp [scanQuote, hc]
    · have ih := scanQuote_rest_le q tl
      simp only [scanQuote, hc, if_false, List.length_cons]
      omega

theorem scanBlock_rest_le (suf : Str) : ∀ s : Str, (scanBlock suf s).2.length ≤ s.length
  | [] => by simp [scanBlock]
  | c :: tl => by
    by_cases hp : startsWith suf (c :: tl) = true
    · simp only [scanBlock, hp, if_true]
      have := List.length_drop suf.length (c :: tl)
      simp only [List.length_cons] at this ⊢
      omega
    · have ih := scanBlock_rest_le suf tl
      simp only [scanBlock, hp, if_false, List.length_cons, Bool.false_eq_true]
      omega

theorem scanLine_rest_le : ∀ s : Str, (scanLine s).2.length ≤ s.length
  | [] => by simp [scanLine]
  | c :: tl => by
    by_cases hr : c = '\r'
    · cases tl with
      | nil => simp [scanLine, hr]
      | cons c2 tl2 =>
        by_cases hn : c2 = '\n'
        · simp only [scanLine, hr, hn, if_true]
          simp only [List.length_cons]
          omega
        · simp [scanLine, hr, hn]
    · by_cases hn : c = '\n'
      · simp [scanLine, hr, hn]
      · have ih := scanLine_rest_le tl
        simp only [scanLine, hr, hn, if_false, List.length_cons]
        omega

theorem maybeWhitespace_some {s w r : Str} (h : maybeWhitespace s = some (w, r)) :
    r.length < s.length := by
  simp only [maybeWhitespace] at h
  split at h
  · exact absurd h (by simp)
  · next hne =>
    simp only [Option.some.injEq, Prod.mk.injEq] at h
    obtain ⟨-, rfl⟩ := h
    have hsplit := List.takeWhile_append_dropWhile isWhitespaceByte s
    have hlen : (s.takeWhile isWhitespaceByte).length +
        (s.dropWhile isWhitespaceByte).length = s.length := by
      rw [← List.length_append, hsplit]
    have hpos : 0 < (s.takeWhile isWhitespaceByte).length := by
      cases hh : s.takeWhile isWhitespaceByte with
      | nil => rw [hh] at hne; simp at hne
      | cons a l => simp [hh]
    omega

theorem maybeStringBetweenBytes_some {p q : Char} {s b r : Str}
    (h : maybeStringBetweenBytes p q s = some (b, r)) : r.length < s.length := by
  cases s with
  | nil => simp [maybeStringBetweenBytes] at h
  | cons c tl =>
    by_cases hc : c = p
    · simp only [maybeStringBetweenBytes, hc, if_true, Option.some.injEq] at h
      have h2 : (scanQuote q tl).2 = r := by rw [h]
      have := scanQuote_rest_le q tl
      rw [h2] at this
      simpa using Nat.lt_succ_of_le this
    · simp [maybeStringBetweenBytes, hc] at h

theorem maybeStringBetween_some {pre suf s b r : Str} (hpre : 0 < pre.length)
    (h : maybeStringBetween pre suf s = some (b, r)) : r.length < s.length := by
  simp only [maybeStringBetween] at h
  split at h
  · next hp =>
    simp only [Option.some.injEq] at h
    have h2 : (scanBlock suf (s.drop pre.length)).2 = r := by rw [h]
    have hle := scanBlock_rest_le suf (s.drop pre.length)
    rw [h2] at hle
    have hdrop := List.length_drop pre.length s
    obtain ⟨t, rfl⟩ := startsWith_exists hp
    have : pre.length ≤ pre.length + t.length := Nat.le_add_right _ _
    simp only [List.length_append] at hdrop hle ⊢
    omega
  · exact absurd h (by simp)

theorem maybeCommentLine_some {s b r : Str} (h : maybeCommentLine s = some (b, r)) :
    r.length < s.length := by
  simp only [maybeCommentLine] at h
  split at h
  · next hp =>
    simp only [Option.some.injEq] at h
    have h2 : (scanLine (s.drop 2)).2 = r := by rw [h]
    have hle := scanLine_rest_le (s.drop 2)
    rw [h2] at hle
    have hdrop := List.length_drop 2 s
    obtain ⟨t, rfl⟩ := startsWith_exists hp
    simp only [List.length_append, List.length_cons, List.length_nil] at hdrop hle ⊢
    omega
  · exact absurd h (by simp)

theorem maybeDoubleColon_some {s r : Str} (h : maybeDoubleColon s = some r) :
    r.length < s.length := by
  simp only [maybeDoubleColon] at h
  split at h
  · next hp =>
    simp only [Option.some.injEq] at h
    obtain ⟨t, rfl⟩ := startsWith_exists hp
    subst h
    have := List.length_drop 2 ([':', ':'] ++ t)
    simp only [List.length_append, List.length_cons, List.length_nil] at this ⊢
    omega
  · exact absurd h (by simp)

theorem maybeOrdinalParam_some {s r : Str} {n : Nat}
    (h : maybeOrdinalParam s = .ok (some (n, r))) : r.length < s.length := by
  cases s with
  | nil => simp [maybeOrdinalParam] at h
  | cons c tl =>
    simp only [maybeOrdinalParam] at h
    split at h
    · split at h
      · exact absurd h (by simp)
      · split at h
        · next heq =>
          simp only [Except.ok.injEq, Option.some.injEq, Prod.mk.injEq] at h
          obtain ⟨-, rfl⟩ := h
          have := List.length_drop (prefixDigits tl).length tl
          simp only [List.length_cons]
          omega
        · exact absurd h (by simp)
    · exact absurd h (by simp)

theorem maybeNamedParam_some {s b r : Str} (h : maybeNamedParam s = some (b, r)) :
    r.length < s.length := by
  cases s with
  | nil => simp [maybeNamedParam] at h
  | cons c tl =>
    simp only [maybeNamedParam] at h
    split at h
    · split at h
      · exact absurd h (by simp)
      · simp only [Option.some.injEq, Prod.mk.injEq] at h
        obtain ⟨-, rfl⟩ := h
        have := List.length_drop (prefixIdent tl).length tl
        simp only [List.length_cons]
        omega
    · exact absurd h (by simp)

/-- The single-delimiter tail of `node` consumes exactly one character. -/
theorem node_progress {s r : Str} {n : Node}
    (h : node s = .ok (some (n, r))) : r.length < s.length := by
  unfold node at h
  split at h
  · next heq =>
    simp only [Except.ok.injEq, Option.some.injEq, Prod.mk.injEq] at h
    obtain ⟨-, rfl⟩ := h
    exact maybeWhitespace_some heq
  split at h
  · next heq =>
    simp only [Except.ok.injEq, Option.some.injEq, Prod.mk.injEq] at h
    obtain ⟨-, rfl⟩ := h
    exact maybeStringBetweenBytes_some heq
  split at h
  · next heq =>
    simp only [Except.ok.injEq, Option.some.injEq, Prod.mk.injEq] at h
    obtain ⟨-, rfl⟩ := h
    exact maybeStringBetweenBytes_some heq
  split at h
  · next heq =>
    simp only [Except.ok.injEq, Option.some.injEq, Prod.mk.injEq] at h
    obtain ⟨-, rfl⟩ := h
    exact maybeStringBetweenBytes_some heq
  split at h
  · next heq =>
    simp only [Except.ok.injEq, Option.some.injEq, Prod.mk.injEq] at h
    obtain ⟨-, rfl⟩ := h
    exact maybeCommentLine_some heq
  split at h
  · next heq =>
    simp only [Except.ok.injEq, Option.some.injEq, Prod.mk.injEq] at h
    obtain ⟨-, rfl⟩ := h
    exact maybeStringBetween_some (by simp) heq
  split at h
  · next heq =>
    simp only [Except.ok.injEq, Option.some.injEq, Prod.mk.injEq] at h
    obtain ⟨-, rfl⟩ := h
    exact maybeDoubleColon_some heq
  split at h
  · exact absurd h (by simp)
  · next heq =>
    simp only [Except.ok.injEq, Option.some.injEq, Prod.mk.injEq] at h
    obtain ⟨-, rfl⟩ := h
    exact maybeOrdinalParam_some heq
  split at h
  · next heq =>
    simp only [Except.ok.injEq, Option.some.injEq, Prod.mk.injEq] at h
    obtain ⟨-, rfl⟩ := h
    exact maybeNamedParam_some heq
  split at h
  · exact absurd h (by simp)
  · next c tl =>
    split at h <;>
      first
      | (simp only [Except.ok.injEq, Option.some.injEq, Prod.mk.injEq] at h
         obtain ⟨-, rfl⟩ := h
         simp)
      | skip
    split at h <;>
      first
      | (simp only [Except.ok.injEq, Option.some.injEq, Prod.mk.injEq] at h
         obtain ⟨-, rfl⟩ := h
         simp)
      | skip
    split at h <;>
      first
      | (simp only [Except.ok.injEq, Option.some.injEq, Prod.mk.injEq] at h
         obtain ⟨-, rfl⟩ := h
         simp)
      | skip
    split at h <;>
      first
      | (simp only [Except.ok.injEq, Option.some.injEq, Prod.mk.injEq] at h
         obtain ⟨-, rfl⟩ := h
         simp)
      | skip
    split at h <;>
      first
      | (simp only [Except.ok.injEq, Option.some.injEq, Prod.mk.injEq] at h
         obtain ⟨-, rfl⟩ := h
         simp)
      | skip
    split at h
    · simp only [Except.ok.injEq, Option.some.injEq, Prod.mk.injEq] at h
      obtain ⟨-, rfl⟩ := h
      simp
    · exact absurd h (by simp)

/-- The text loop never consumes past the input. -/
theorem textScan_rest_le : ∀ {s t r : Str}, textScan s = .ok (t, r) → r.length ≤ s.length
  | [], _, _, h => by
    simp only [textScan, Except.ok.injEq, Prod.mk.injEq] at h
    obtain ⟨-, rfl⟩ := h
    exact Nat.le_refl _
  | c :: tl, t, r, h => by
    simp only [textScan] at h
    split at h
    · exact absurd h (by simp)
    · simp only [Except.ok.injEq, Prod.mk.injEq] at h
      obtain ⟨-, rfl⟩ := h
      exact Nat.le_refl _
    · split at h
      · exact absurd h (by simp)
      · next txt rest heq =>
        simp only [Except.ok.injEq, Prod.mk.injEq] at h
        obtain ⟨-, rfl⟩ := h
        have := textScan_rest_le heq
        simp only [List.length_cons]
        omega

/-- tokenizer.go `Tokenizer.Next` always consumes at least one character
when it returns a token: the cursor strictly advances. -/
theorem next_progress {s r : Str} {n : Node}
    (h : next s = .ok (some (n, r))) : r.length < s.length := by
  unfold next at h
  split at h
  · exact absurd h (by simp)
  · next heq =>
    simp only [Except.ok.injEq, Option.some.injEq] at h
    subst h
    exact node_progress heq
  · next heq =>
    split at h
    · exact absurd h (by simp)
    · next c tl =>
      split at h
      · exact absurd h (by simp)
      · next txt rest heqt =>
        simp only [Except.ok.injEq, Option.some.injEq, Prod.mk.injEq] at h
        obtain ⟨-, rfl⟩ := h
        simp only [textScan, heq] at heqt
        split at heqt
        · exact absurd heqt (by simp)
        · next txt2 rest2 heq2 =>
          simp only [Except.ok.injEq, Prod.mk.injEq] at heqt
          obtain ⟨-, rfl⟩ := heqt
          have := textScan_rest_le heq2
          simp only [List.length_cons]
          omega

/-! ## Fuel bookkeeping for the parser -/

/-- A finished `parseBetween` never leaves more input than it started
with. -/
theorem parseBetween_rest_le (fuel : Nat) :
    ∀ {close : Node} {s : Str} {nodes out : List Node} {r : Str},
      parseBetween fuel close s nodes = some (.ok (out, r)) → r.length ≤ s.length := by
  induction fuel with
  | zero => intro close s nodes out r h; simp [parseBetween] at h
  | succ fuel ih =>
    intro close s nodes out r h
    simp only [parseBetween] at h
    split at h
    · exact absurd h (by simp)
    · exact absurd h (by simp)
    · next n s1 heqn =>
      have hp := next_progress heqn
      split at h
      · simp only [Option.some.injEq, Except.ok.injEq, Prod.mk.injEq] at h
        obtain ⟨-, rfl⟩ := h
        omega
      · split at h
        · exact absurd h (by simp)
        · have := ih h
          omega
        · split at h
          · exact absurd h (by simp)
          · exact absurd h (by simp)
          · next children s2 heqi =>
            have hi := ih heqi
            have := ih h
            omega

mutual

/-- The top-level parse loop returns (rather than running out of fuel)
whenever the fuel exceeds the input length: the loop of part_002 `parse`
terminates after at most `length + 1` tokenizer calls. -/
theorem parseGo_total : ∀ (fuel : Nat) (s : Str) (nodes : List Node),
    s.length < fuel → (parseGo fuel s nodes).isSome = true
  | 0, _, _, hlt => absurd hlt (by omega)
  | fuel + 1, s, nodes, hlt => by
    simp only [parseGo]
    rcases heqn : next s with e | o
    · simp
    · rcases o with _ | ⟨n, s1⟩
      · simp
      · have hp := next_progress heqn
        rcases hd : dispatch n with k | u | pl
        · simp only [hd]
          have hb := parseBetween_total fuel (closeOf k) s1 [] (by omega)
          rcases hpb : parseBetween fuel (closeOf k) s1 [] with _ | r
          · rw [hpb] at hb; simp at hb
          · rcases r with e | ⟨children, s2⟩
            · simp [hpb]
            · have hs2 := parseBetween_rest_le fuel hpb
              simp only [hpb]
              exact parseGo_total fuel s2 (nodes ++ [wrapOf k children]) (by omega)
        · simp [hd]
        · simp only [hd]
          exact parseGo_total fuel s1 (nodes ++ [n]) (by omega)

/-- Same for the nested loop of part_002 `parseBetween`. -/
theorem parseBetween_total : ∀ (fuel : Nat) (close : Node) (s : Str) (nodes : List Node),
    s.length < fuel → (parseBetween fuel close s nodes).isSome = true
  | 0, _, _, _, hlt => absurd hlt (by omega)
  | fuel + 1, close, s, nodes, hlt => by
    simp only [parseBetween]
    rcases heqn : next s with e | o
    · simp
    · rcases o with _ | ⟨n, s1⟩
      · simp
      · have hp := next_progress heqn
        by_cases hbe : nodeBEq n close = true
        · simp [hbe]
        · simp only [hbe, Bool.false_eq_true, if_false]
          rcases hd : dispatch n with k | u | pl
          · simp only [hd]
            have hb := parseBetween_total fuel (closeOf k) s1 [] (by omega)
            rcases hpb : parseBetween fuel (closeOf k) s1 [] with _ | r
            · rw [hpb] at hb; simp at hb
            · rcases r with e | ⟨children, s2⟩
              · simp [hpb]
              · have hs2 := parseBetween_rest_le fuel hpb
                simp only [hpb]
                exact parseBetween_total fuel close s2 (nodes ++ [wrapOf k children]) (by omega)
          · simp [hd]
          · simp only [hd]
            exact parseBetween_total fuel close s1 (nodes ++ [n]) (by omega)

end

mutual

/-- Above the `length + 1` threshold the fuel does not influence the
result of the parse loop: the fuelled embedding computes the function
the Go loop computes. -/
theorem parseGo_mono : ∀ (f g : Nat) (s : Str) (nodes : List Node),
    s.length < f → s.length < g → parseGo f s nodes = parseGo g s nodes
  | 0, _, _, _, hf, _ => absurd hf (by omega)
  | _ + 1, 0, _, _, _, hg => absurd hg (by omega)
  | f + 1, g + 1, s, nodes, hf, hg => by
    simp only [parseGo]
    rcases heqn : next s with e | o
    · rfl
    · rcases o with _ | ⟨n, s1⟩
      · rfl
      · have hp := next_progress heqn
        rcases hd : dispatch n with k | u | pl
        · simp only [hd]
          have hmB := parseBetween_mono f g (closeOf k) s1 [] (by omega) (by omega)
          rw [hmB]
          rcases hpb : parseBetween g (closeOf k) s1 [] with _ | r
          · simp [hpb]
          · rcases r with e | ⟨children, s2⟩
            · simp [hpb]
            · have hs2 := parseBetween_rest_le g hpb
              simp only [hpb]
              exact parseGo_mono f g s2 (nodes ++ [wrapOf k children]) (by omega) (by omega)
        · simp [hd]
        · simp only [hd]
          exact parseGo_mono f g s1 (nodes ++ [n]) (by omega) (by omega)

/-- Same for `parseBetween`. -/
theorem parseBetween_mono : ∀ (f g : Nat) (close : Node) (s : Str) (nodes : List Node),
    s.length < f → s.length < g → parseBetween f close s nodes = parseBetween g close s nodes
  | 0, _, _, _, _, hf, _ => absurd hf (by omega)
  | _ + 1, 0, _, _, _, _, hg => absurd hg (by omega)
  | f + 1, g + 1, close, s, nodes, hf, hg => by
    simp only [parseBetween]
    rcases heqn : next s with e | o
    · rfl
    · rcases o with _ | ⟨n, s1⟩
      · rfl
      · have hp := next_progress heqn
        by_cases hbe : nodeBEq n close = true
        · simp [hbe]
        · simp only [hbe, Bool.false_eq_true, if_false]
          rcases hd : dispatch n with k | u | pl
          · simp only [hd]
            have hmB := parseBetween_mono f g (closeOf k) s1 [] (by omega) (by omega)
            rw [hmB]
            rcases hpb : parseBetween g (closeOf k) s1 [] with _ | r
            · simp [hpb]
            · rcases r with e | ⟨children, s2⟩
              · simp [hpb]
              · have hs2 := parseBetween_rest_le g hpb
                simp only [hpb]
                exact parseBetween_mono f g close s2 (nodes ++ [wrapOf k children])
                  (by omega) (by omega)
          · simp [hd]
          · simp only [hd]
            exact parseBetween_mono f g close s1 (nodes ++ [n]) (by omega) (by omega)

end

/-- Any fuel above the input length computes exactly `Parse`. -/
theorem parseGo_eq_parse (s : Str) (fuel : Nat) (h : s.length < fuel) :
    parseGo fuel s [] = some (Parse s) := by
  have hm := parseGo_mono fuel (s.length + 1) s [] h (by omega)
  have ht := parseGo_total (s.length + 1) s [] (by omega)
  rcases heq : parseGo (s.length + 1) s [] with _ | r
  · rw [heq] at ht; simp at ht
  · rw [hm, heq]
    simp [Parse, heq]

/-! ## The deep traversal visits only leaves -/

mutual

theorem nodeVisits_leaves : ∀ n : Node, (nodeVisits n).all isLeafNode = true
  | .text _ => rfl
  | .whitespace _ => rfl
  | .quoteSingle _ => rfl
  | .quoteDouble _ => rfl
  | .quoteGrave _ => rfl
  | .commentLine _ => rfl
  | .commentBlock _ => rfl
  | .doubleColon => rfl
  | .ordinalParam _ => rfl
  | .namedParam _ => rfl
  | .parenOpen => rfl
  | .parenClose => rfl
  | .bracketOpen => rfl
  | .bracketClose => rfl
  | .braceOpen => rfl
  | .braceClose => rfl
  | .parens xs => visitsList_leaves xs
  | .brackets xs => visitsList_leaves xs
  | .braces xs => visitsList_leaves xs
  | .seq xs => visitsList_leaves xs
  | .null => rfl

theorem visitsList_leaves : ∀ xs : List Node, (visitsList xs).all isLeafNode = true
  | [] => rfl
  | n :: tl => by
    simp only [visitsList, List.all_append]
    rw [nodeVisits_leaves n, visitsList_leaves tl]
    rfl

end

/-! ## Line comments consume the terminator into their payload -/

/-- When the body contains no CR or LF, the scan loop of
`maybeCommentLine` stops exactly at the line terminator and the
terminator bytes are part of the consumed span. -/
theorem scanLine_terminated (rest : Str) :
    ∀ body : Str, (∀ c ∈ body, c ≠ '\r' ∧ c ≠ '\n') →
      scanLine (body ++ '\n' :: rest) = (body ++ ['\n'], rest) ∧
      scanLine (body ++ '\r' :: '\n' :: rest) = (body ++ ['\r', '\n'], rest)
  | [], _ => by
    constructor
    · simp only [List.nil_append]
      simp [scanLine]
    · simp only [List.nil_append]
      simp [scanLine]
  | c :: body, hok => by
    have hc := hok c (by simp)
    have ih := scanLine_terminated rest body (fun d hd => hok d (by simp [hd]))
    constructor
    · simp only [List.cons_append, scanLine, hc.1, hc.2, if_false, List.append_eq]
      rw [ih.1]
    · simp only [List.cons_append, scanLine, hc.1, hc.2, if_false, List.append_eq]
      rw [ih.2]

/-- When the body contains no CR or LF and a lone CR follows it (the
next character is not LF, which would make the terminator CRLF), the
scan loop stops at the CR and the CR is part of the consumed span. -/
theorem scanLine_terminated_cr (rest : Str) (hrest : rest.head? ≠ some '\n') :
    ∀ body : Str, (∀ c ∈ body, c ≠ '\r' ∧ c ≠ '\n') →
      scanLine (body ++ '\r' :: rest) = (body ++ ['\r'], rest)
  | [], _ => by
    simp only [List.nil_append]
    cases rest with
    | nil => simp [scanLine]
    | cons c2 tl2 =>
      have hc2 : c2 ≠ '\n' := by simpa using hrest
      simp [scanLine, hc2]
  | c :: body, hok => by
    have hc := hok c (by simp)
    have ih := scanLine_terminated_cr rest hrest body (fun d hd => hok d (by simp [hd]))
    simp only [List.cons_append, scanLine, hc.1, hc.2, if_false, List.append_eq]
    rw [ih]

/-- `maybeCommentLine` on `--` + newline-free body + LF (or CRLF) + rest:
the payload is the body plus the full terminator, and the rest starts
after the terminator. -/
theorem maybeCommentLine_terminated (body rest : Str)
    (hok : ∀ c ∈ body, c ≠ '\r' ∧ c ≠ '\n') :
    maybeCommentLine ('-' :: '-' :: (body ++ '\n' :: rest)) = some (body ++ ['\n'], rest) ∧
    maybeCommentLine ('-' :: '-' :: (body ++ '\r' :: '\n' :: rest)) =
      some (body ++ ['\r', '\n'], rest) := by
  have hs := scanLine_terminated rest body hok
  constructor
  · simp only [maybeCommentLine]
    rw [if_pos (by simp [startsWith])]
    simp only [List.drop_succ_cons, List.drop_zero]
    rw [hs.1]
  · simp only [maybeCommentLine]
    rw [if_pos (by simp [startsWith])]
    simp only [List.drop_succ_cons, List.drop_zero]
    rw [hs.2]

/-- `maybeCommentLine` on `--` + newline-free body + lone CR + rest (the
rest not starting with LF): the payload is the body plus the CR. -/
theorem maybeCommentLine_terminated_cr (body rest : Str)
    (hok : ∀ c ∈ body, c ≠ '\r' ∧ c ≠ '\n') (hrest : rest.head? ≠ some '\n') :
    maybeCommentLine ('-' :: '-' :: (body ++ '\r' :: rest)) = some (body ++ ['\r'], rest) := by
  simp only [maybeCommentLine]
  rw [if_pos (by simp [startsWith])]
  simp only [List.drop_succ_cons, List.drop_zero]
  rw [scanLine_terminated_cr rest hrest body hok]

/-! ## Parse errors carry no position information -/

/-- No token rule matches at a letter `a`; it is accumulated as text. -/
theorem node_letter_a (rest : Str) : node ('a' :: rest) = .ok none := rfl

/-- A closing bracket is always its own token. -/
theorem node_bracket_close (rest : Str) :
    node (']' :: rest) = .ok (some (.bracketClose, rest)) := rfl

/-- The text loop consumes a whole run of `a`s and stops at `]`. -/
theorem textScan_a_run : ∀ m : Nat,
    textScan (List.replicate m 'a' ++ [']']) = .ok (List.replicate m 'a', [']'])
  | 0 => rfl
  | m + 1 => by
    rw [List.replicate_succ, List.cons_append]
    simp only [textScan]
    rw [node_letter_a]
    simp only [textScan_a_run m]

/-- The tokenizer turns a non-empty `a` run into one text token. -/
theorem next_a_run (m : Nat) :
    next (List.replicate (m + 1) 'a' ++ [']']) =
      .ok (some (.text (List.replicate (m + 1) 'a'), [']'])) := by
  have h1 : List.replicate (m + 1) 'a' ++ [']'] =
      'a' :: (List.replicate m 'a' ++ [']']) := by
    rw [List.replicate_succ, List.cons_append]
  rw [h1]
  simp only [next]
  rw [node_letter_a]
  have h2 := textScan_a_run (m + 1)
  rw [h1] at h2
  simp only [h2]

/-- A stray `]` fails the parse loop identically whatever was parsed
before it. -/
theorem parseGo_stray_bracket (fuel : Nat) (nodes : List Node) :
    parseGo (fuel + 1) [']'] nodes = some (.error (.unexpectedClosing .bracketClose)) := rfl

/-! ## Heap lemmas for deep copy -/

theorem lookup_lt_length {h : Heap} {a : Nat} {slots : List HNode}
    (hl : lookup h a = some slots) : a < h.length := by
  by_contra hge
  rw [lookup, List.get?_eq_none.mpr (by omega)] at hl
  exact Option.noConfusion hl

theorem lookup_extend {h h1 : Heap} {j : Nat} (hp : h <+: h1) (hj : j < h.length) :
    lookup h1 j = lookup h j := by
  obtain ⟨t, rfl⟩ := hp
  exact List.get?_append hj

theorem lookup_writeSlot_ne {h : Heap} {b i j : Nat} {v : HNode} (hne : b ≠ j) :
    lookup (writeSlot h b i v) j = lookup h j := by
  unfold writeSlot
  split
  · exact List.get?_set_ne _ _ hne
  · rfl

mutual

/-- A slice keeps denoting the same tree sequence in any heap that
agrees with the current one on every live address. -/
theorem readSlice_agree : ∀ (rf : Nat) {h h2 : Heap} {a : Nat} {ns : List Node},
    (∀ j, j < h.length → lookup h2 j = lookup h j) →
    readSlice rf h a = some ns → readSlice rf h2 a = some ns
  | 0, _, _, _, _, _, hread => by simp [readSlice] at hread
  | rf + 1, h, h2, a, ns, hagree, hread => by
    simp only [readSlice] at hread ⊢
    rcases hla : lookup h a with _ | slots
    · simp only [hla] at hread
      exact absurd hread (by simp)
    · simp only [hla] at hread
      rw [hagree a (lookup_lt_length hla), hla]
      exact readSlots_agree rf hagree hread

/-- Same for a slot array. -/
theorem readSlots_agree : ∀ (rf : Nat) {h h2 : Heap} {xs : List HNode} {ns : List Node},
    (∀ j, j < h.length → lookup h2 j = lookup h j) →
    readSlots rf h xs = some ns → readSlots rf h2 xs = some ns
  | 0, _, _, _, _, _, hread => by simp [readSlots] at hread
  | rf + 1, h, h2, [], ns, hagree, hread => hread
  | rf + 1, h, h2, x :: xs, ns, hagree, hread => by
    simp only [readSlots] at hread ⊢
    rcases hx : readHNode rf h x with _ | n
    · simp only [hx] at hread
      exact absurd hread (by simp)
    · simp only [hx] at hread
      rcases hxs : readSlots rf h xs with _ | tl
      · simp only [hxs] at hread
        exact absurd hread (by simp)
      · simp only [hxs] at hread
        rw [readHNode_agree rf hagree hx, readSlots_agree rf hagree hxs]
        exact hread

/-- Same for a single slot. -/
theorem readHNode_agree : ∀ (rf : Nat) {h h2 : Heap} {x : HNode} {n : Node},
    (∀ j, j < h.length → lookup h2 j = lookup h j) →
    readHNode rf h x = some n → readHNode rf h2 x = some n
  | 0, _, _, _, _, _, hread => by simp [readHNode] at hread
  | rf + 1, h, h2, .leaf m, n, hagree, hread => hread
  | rf + 1, h, h2, .hnull, n, hagree, hread => hread
  | rf + 1, h, h2, .comp k a, n, hagree, hread => by
    simp only [readHNode] at hread ⊢
    rcases ha : readSlice rf h a with _ | xs
    · simp only [ha] at hread
      exact absurd hread (by simp)
    · simp only [ha] at hread
      rw [readSlice_agree rf hagree ha]
      exact hread
  | rf + 1, h, h2, .seqComp a, n, hagree, hread => by
    simp only [readHNode] at hread ⊢
    rcases ha : readSlice rf h a with _ | xs
    · simp only [ha] at hread
      exact absurd hread (by simp)
    · simp only [ha] at hread
      rw [readSlice_agree rf hagree ha]
      exact hread

end

mutual

/--
`copySlice` extends the heap (never touching existing cells), allocates
the copy at a fresh address, and the copy denotes the same tree sequence
— moreover it keeps doing so in any heap that agrees with the result on
the freshly allocated range, because the copy references only fresh
cells.
-/
theorem copySlice_spec :
    ∀ (cf : Nat) (h : Heap) (a : Nat) (h1 : Heap) (a1 : Nat) (rf : Nat) (ns : List Node),
      readSlice rf h a = some ns → copySlice cf h a = some (h1, a1) →
      h <+: h1 ∧ h.length ≤ a1 ∧
        (∀ h2, (∀ j, h.length ≤ j → j < h1.length → lookup h2 j = lookup h1 j) →
          readSlice rf h2 a1 = some ns)
  | 0, _, _, _, _, _, _, _, hcopy => by simp [copySlice] at hcopy
  | cf + 1, h, a, h1, a1, rf, ns, hread, hcopy => by
    rcases rf with _ | rf
    · simp [readSlice] at hread
    simp only [readSlice] at hread
    simp only [copySlice] at hcopy
    rcases hla : lookup h a with _ | slots
    · simp only [hla] at hcopy
      exact absurd hcopy (by simp)
    · simp only [hla] at hcopy hread
      rcases hcs : copySlots cf h slots with _ | ⟨hs, out⟩
      · simp only [hcs] at hcopy
        exact absurd hcopy (by simp)
      · simp only [hcs] at hcopy
        simp only [Option.some.injEq, Prod.mk.injEq] at hcopy
        obtain ⟨rfl, rfl⟩ := hcopy
        obtain ⟨hpre, hclause⟩ := copySlots_spec cf h slots hs out rf ns hread hcs
        have hlenp : h.length ≤ hs.length := hpre.length_le
        have hlen1 : (hs ++ [out]).length = hs.length + 1 := by simp
        refine ⟨hpre.trans (List.prefix_append hs [out]), by omega, ?_⟩
        intro h2 hagree
        have hroot : lookup h2 hs.length = some out := by
          rw [hagree hs.length (by omega) (by omega)]
          simp only [lookup]
          exact List.get?_concat_length hs out
        simp only [readSlice, hroot]
        apply hclause
        intro j hj1 hj2
        rw [hagree j hj1 (by omega)]
        simp only [lookup]
        exact List.get?_append hj2

/-- Slot-array version of `copySlice_spec`. -/
theorem copySlots_spec :
    ∀ (cf : Nat) (h : Heap) (slots : List HNode) (h1 : Heap) (out : List HNode)
      (rf : Nat) (ns : List Node),
      readSlots rf h slots = some ns → copySlots cf h slots = some (h1, out) →
      h <+: h1 ∧
        (∀ h2, (∀ j, h.length ≤ j → j < h1.length → lookup h2 j = lookup h1 j) →
          readSlots rf h2 out = some ns)
  | 0, _, _, _, _, _, _, _, hcopy => by simp [copySlots] at hcopy
  | cf + 1, h, [], h1, out, rf, ns, hread, hcopy => by
    simp only [copySlots, Option.some.injEq, Prod.mk.injEq] at hcopy
    obtain ⟨rfl, rfl⟩ := hcopy
    rcases rf with _ | rf
    · simp [readSlots] at hread
    · exact ⟨List.prefix_refl _, fun h2 _ => hread⟩
  | cf + 1, h, x :: xs, h1, out, rf, ns, hread, hcopy => by
    rcases rf with _ | rf
    · simp [readSlots] at hread
    simp only [readSlots] at hread
    simp only [copySlots] at hcopy
    rcases hx : readHNode rf h x with _ | n
    · simp only [hx] at hread
      exact absurd hread (by simp)
    rcases hxs : readSlots rf h xs with _ | tl
    · simp only [hx, hxs] at hread
      exact absurd hread (by simp)
    simp only [hx, hxs] at hread
    simp only [Option.some.injEq] at hread
    rcases hc1 : copyHNode cf h x with _ | ⟨hh1, x1⟩
    · simp only [hc1] at hcopy
      exact absurd hcopy (by simp)
    · simp only [hc1] at hcopy
      rcases hc2 : copySlots cf hh1 xs with _ | ⟨h2x, xs1⟩
      · simp only [hc2] at hcopy
        exact absurd hcopy (by simp)
      · simp only [hc2] at hcopy
        simp only [Option.some.injEq, Prod.mk.injEq] at hcopy
        obtain ⟨rfl, rfl⟩ := hcopy
        obtain ⟨hpre1, clauseA⟩ := copyHNode_spec cf h x hh1 x1 rf n hx hc1
        have hxs1 : readSlots rf hh1 xs = some tl :=
          readSlots_agree rf (fun j hj => lookup_extend hpre1 hj) hxs
        obtain ⟨hpre2, clauseB⟩ := copySlots_spec cf hh1 xs h2x xs1 rf tl hxs1 hc2
        have hl1 : h.length ≤ hh1.length := hpre1.length_le
        have hl2 : hh1.length ≤ h2x.length := hpre2.length_le
        refine ⟨hpre1.trans hpre2, ?_⟩
        intro h2 hagree
        have hA : readHNode rf h2 x1 = some n := by
          apply clauseA h2
          intro j hj1 hj2
          rw [hagree j hj1 (by omega), lookup_extend hpre2 hj2]
        have hB : readSlots rf h2 xs1 = some tl := by
          apply clauseB h2
          intro j hj1 hj2
          rw [hagree j (by omega) hj2]
        simp only [readSlots, hA, hB]
        rw [hread]

/-- Slot version of `copySlice_spec`: immutable slot values are returned
as-is, collection slots get a freshly allocated deep copy. -/
theorem copyHNode_spec :
    ∀ (cf : Nat) (h : Heap) (x : HNode) (h1 : Heap) (x1 : HNode) (rf : Nat) (n : Node),
      readHNode rf h x = some n → copyHNode cf h x = some (h1, x1) →
      h <+: h1 ∧
        (∀ h2, (∀ j, h.length ≤ j → j < h1.length → lookup h2 j = lookup h1 j) →
          readHNode rf h2 x1 = some n)
  | 0, _, _, _, _, _, _, _, hcopy => by simp [copyHNode] at hcopy
  | cf + 1, h, .comp k a, h1, x1, rf, n, hread, hcopy => by
    rcases rf with _ | rf
    · simp [readHNode] at hread
    simp only [readHNode] at hread
    simp only [copyHNode] at hcopy
    rcases ha : readSlice rf h a with _ | xs
    · simp only [ha] at hread
      exact absurd hread (by simp)
    simp only [ha] at hread
    rcases hcs : copySlice cf h a with _ | ⟨hs, a1⟩
    · simp only [hcs] at hcopy
      exact absurd hcopy (by simp)
    · simp only [hcs] at hcopy
      simp only [Option.some.injEq, Prod.mk.injEq] at hcopy
      obtain ⟨rfl, rfl⟩ := hcopy
      obtain ⟨hpre, hge, hclause⟩ := copySlice_spec cf h a hs a1 rf xs ha hcs
      refine ⟨hpre, ?_⟩
      intro h2 hagree
      simp only [readHNode]
      rw [hclause h2 hagree]
      exact hread
  | cf + 1, h, .seqComp a, h1, x1, rf, n, hread, hcopy => by
    rcases rf with _ | rf
    · simp [readHNode] at hread
    simp only [readHNode] at hread
    simp only [copyHNode] at hcopy
    rcases ha : readSlice rf h a with _ | xs
    · simp only [ha] at hread
      exact absurd hread (by simp)
    simp only [ha] at hread
    rcases hcs : copySlice cf h a with _ | ⟨hs, a1⟩
    · simp only [hcs] at hcopy
      exact absurd hcopy (by simp)
    · simp only [hcs] at hcopy
      simp only [Option.some.injEq, Prod.mk.injEq] at hcopy
      obtain ⟨rfl, rfl⟩ := hcopy
      obtain ⟨hpre, hge, hclause⟩ := copySlice_spec cf h a hs a1 rf xs ha hcs
      refine ⟨hpre, ?_⟩
      intro h2 hagree
      simp only [readHNode]
      rw [hclause h2 hagree]
      exact hread
  | cf + 1, h, .leaf nx, h1, x1, rf, n, hread, hcopy => by
    simp only [copyHNode, Option.some.injEq, Prod.mk.injEq] at hcopy
    obtain ⟨rfl, rfl⟩ := hcopy
    rcases rf with _ | rf
    · simp [readHNode] at hread
    · exact ⟨List.prefix_refl _, fun h2 _ => hread⟩
  | cf + 1, h, .hnull, h1, x1, rf, n, hread, hcopy => by
    simp only [copyHNode, Option.some.injEq, Prod.mk.injEq] at hcopy
    obtain ⟨rfl, rfl⟩ := hcopy
    rcases rf with _ | rf
    · simp [readHNode] at hread
    · exact ⟨List.prefix_refl _, fun h2 _ => hread⟩

end

/-- One step of the top-level parse loop on a plain (non-delimiter)
token. -/
theorem parseGo_step_plain (fuel : Nat) (s s1 : Str) (nodes : List Node) (n : Node)
    (hnext : next s = .ok (some (n, s1))) (hd : dispatch n = .plain) :
    parseGo (fuel + 1) s nodes = parseGo fuel s1 (nodes ++ [n]) := by
  simp only [parseGo, hnext, hd]

/-! ## Claims -/

/--
C1: the round-trip invariant is violated by the code (the claim states
the documented intent; the code breaks it).  `Parse` accepts `$01` with
no error, returning `OrdinalParam 1`, which serializes as `$1`, not
`$01`; and (in the tokenizer.go revision) it accepts the unterminated
`'abc` returning `QuoteSingle "abc"`, which serializes as `'abc'` with a
closing quote the input never had.
-/
theorem c1_round_trip_violated :
    Parse ("$01".toList) = .ok [.ordinalParam 1] ∧
    nodesStr [.ordinalParam 1] = "$1".toList ∧
    "$1".toList ≠ "$01".toList ∧
    Parse ("'abc".toList) = .ok [.quoteSingle ("abc".toList)] ∧
    nodesStr [.quoteSingle ("abc".toList)] = "'abc'".toList ∧
    "'abc'".toList ≠ "'abc".toList :=
  ⟨rfl, rfl, by decide, rfl, rfl, by decide⟩

/--
C2: on input `'abc` (quote opened, input ends before the closing quote)
the tokenizer of src/tokenizer.go silently returns the unterminated
remainder as the string's value and `Parse` accepts, contradicting the
claim; the `Token`-based tokenizer of src/sqlp_tokenizer.go fails with
the unterminated-quote error exactly as the claim (and the spec's
canonical policy) states.
-/
theorem c2_unterminated_quote_divergence :
    next ("'abc".toList) = .ok (some (.quoteSingle ("abc".toList), [])) ∧
    Parse ("'abc".toList) = .ok [.quoteSingle ("abc".toList)] ∧
    SqlpT.maybeStringBetweenBytes '\'' '\'' ("'abc".toList) =
      .error (.unterminatedClose '\'') :=
  ⟨rfl, rfl, rfl⟩

/--
C3 counterexample: the comment node produced from
`one -- two \n three` stores `" two \n"` — the LF terminator is part of
the comment payload, and the following whitespace token is the single
space before `three`, not the terminator.  The claim says the payload
excludes the terminator and the terminator starts the next whitespace
token, which is false here.
-/
theorem c3_comment_terminator_cex :
    Parse ("one -- two \n three".toList) =
      .ok [.text ("one".toList), .whitespace [' '], .commentLine (" two \n".toList),
           .whitespace [' '], .text ("three".toList)] ∧
    '\n' ∈ (" two \n".toList : Str) :=
  ⟨rfl, by decide⟩

/--
C3 amended: for every line comment whose body is free of CR/LF, the
comment payload is the body *plus the full line terminator*, for each of
the three terminator forms — LF, CRLF, and a lone CR (a CR counts as the
lone-CR terminator exactly when the next character is not LF, which
would make the terminator CRLF); the terminator is consumed into the
comment, not left for the next whitespace token.
-/
theorem c3_comment_includes_terminator (body rest : Str)
    (hok : ∀ c ∈ body, c ≠ '\r' ∧ c ≠ '\n') :
    maybeCommentLine ('-' :: '-' :: (body ++ '\n' :: rest)) = some (body ++ ['\n'], rest) ∧
    maybeCommentLine ('-' :: '-' :: (body ++ '\r' :: '\n' :: rest)) =
      some (body ++ ['\r', '\n'], rest) ∧
    (rest.head? ≠ some '\n' →
      maybeCommentLine ('-' :: '-' :: (body ++ '\r' :: rest)) = some (body ++ ['\r'], rest)) :=
  ⟨(maybeCommentLine_terminated body rest hok).1,
   (maybeCommentLine_terminated body rest hok).2,
   fun hrest => maybeCommentLine_terminated_cr body rest hok hrest⟩

/-- C3 amended, witnessed at the body `" x"` and rest `" y"`, for the LF
and lone-CR terminators. -/
theorem c3_comment_includes_terminator_witness :
    (∀ c ∈ (" x".toList : Str), c ≠ '\r' ∧ c ≠ '\n') ∧
    maybeCommentLine ('-' :: '-' :: ((" x".toList : Str) ++ '\n' :: " y".toList)) =
      some (" x".toList ++ ['\n'], " y".toList) ∧
    maybeCommentLine ('-' :: '-' :: ((" x".toList : Str) ++ '\r' :: " y".toList)) =
      some (" x".toList ++ ['\r'], " y".toList) :=
  ⟨by decide,
    (c3_comment_includes_terminator (" x".toList) (" y".toList) (by decide)).1,
    (c3_comment_includes_terminator (" x".toList) (" y".toList) (by decide)).2.2 (by decide)⟩

/--
C4: parsing `$1 $2::int :three::text` yields exactly the claimed leaf
sequence, and the cast operator is matched before named-parameter
matching: at any `::` the tokenizer always emits the DoubleColon token,
never an empty or malformed named parameter.
-/
theorem c4_param_parsing :
    Parse ("$1 $2::int :three::text".toList) =
      .ok [.ordinalParam 1, .whitespace [' '], .ordinalParam 2, .doubleColon,
           .text ("int".toList), .whitespace [' '], .namedParam ("three".toList),
           .doubleColon, .text ("text".toList)] ∧
    (∀ s : Str, node (':' :: ':' :: s) = .ok (some (.doubleColon, s))) :=
  ⟨rfl, fun _ => rfl⟩

/--
C5: `(]` fails with the unexpected-closing-delimiter error, `(` fails
with the missing-closing-delimiter error, and `[({one two})]` parses to
Brackets ⊃ Parens ⊃ Braces.
-/
theorem c5_strict_nesting :
    Parse ("(]".toList) = .error (.unexpectedClosing .bracketClose) ∧
    Parse ("(".toList) = .error (.missingClosing .parenClose) ∧
    Parse ("[(\x7bone two\x7d)]".toList) =
      .ok [.brackets [.parens [.braces
        [.text ("one".toList), .whitespace [' '], .text ("two".toList)]]]] :=
  ⟨rfl, rfl, rfl⟩

/--
C6 counterexample: two parses failing at different byte offsets (`]` at
offset 0 and `one ]` at offset 4) return identical error values, so the
error cannot identify the byte offset of the fault; and the unterminated
quote `'a` produces no error at all in this revision, so no
UnterminatedQuote error kind exists.
-/
theorem c6_error_position_cex :
    Parse ("]".toList) = .error (.unexpectedClosing .bracketClose) ∧
    Parse ("one ]".toList) = .error (.unexpectedClosing .bracketClose) ∧
    Parse ("'a".toList) = .ok [.quoteSingle ['a']] :=
  ⟨rfl, rfl, rfl⟩

/--
C6 amended: a failing parse returns one of the error values of `Err`
(unexpected closing with the offending token, missing closing with the
awaited token, or an int64 range error), none of which carries position
information: the same structural fault produces the identical error
value at every offset, here shown for a stray `]` after any number of
text characters.
-/
theorem c6_error_offset_independent (m : Nat) :
    Parse (List.replicate m 'a' ++ [']']) = .error (.unexpectedClosing .bracketClose) := by
  cases m with
  | zero => rfl
  | succ m =>
    have hlen : (List.replicate (m + 1) 'a' ++ [']']).length = m + 2 := by simp
    unfold Parse
    rw [hlen]
    rw [parseGo_step_plain (m + 2) _ _ _ _ (next_a_run m) rfl]
    rw [show m + 2 = m + 1 + 1 from rfl, parseGo_stray_bracket]

/--
C7: the deep traversal (`TraverseLeaves`) invokes the callback only on
leaf nodes — never on nil or on a composite — and over the parse of
`[one [two three]]` it visits Text "one", whitespace, Text "two",
whitespace, Text "three" in that left-to-right source order.
-/
theorem c7_traverse_leaves :
    (∀ xs : List Node, (visitsList xs).all isLeafNode = true) ∧
    visitsList (ParseOk ("[one [two three]]".toList)) =
      [.text ("one".toList), .whitespace [' '], .text ("two".toList),
       .whitespace [' '], .text ("three".toList)] :=
  ⟨visitsList_leaves, rfl⟩

/--
C8: `CopyDeep` shares no mutable storage with the original.  If the
slice at `a` denotes the tree sequence `ns` and `copySlice` produces the
copy at `a1` in heap `h1`, then (1) the copy denotes the same `ns`;
(2) writing any value into any slot of any slice of the original heap
(every address `b < h.length`, which covers every slice the original
tree reaches, including writes made through the traversal callbacks)
leaves the copy's denotation unchanged; and (3) writing into any freshly
allocated slice (`b ≥ h.length`, which covers every slice of the copy)
leaves the original's denotation unchanged.
-/
theorem c8_copy_isolation (h : Heap) (a : Nat) (ns : List Node) (rf cf : Nat)
    (h1 : Heap) (a1 : Nat)
    (hread : readSlice rf h a = some ns)
    (hcopy : copySlice cf h a = some (h1, a1)) :
    readSlice rf h1 a1 = some ns ∧
    (∀ b i v, b < h.length → readSlice rf (writeSlot h1 b i v) a1 = some ns) ∧
    (∀ b i v, h.length ≤ b → readSlice rf (writeSlot h1 b i v) a = some ns) := by
  obtain ⟨hpre, hge, hclause⟩ := copySlice_spec cf h a h1 a1 rf ns hread hcopy
  refine ⟨hclause h1 (fun j _ _ => rfl), ?_, ?_⟩
  · intro b i v hb
    apply hclause
    intro j hj1 hj2
    exact lookup_writeSlot_ne (by omega)
  · intro b i v hb
    apply readSlice_agree rf ?_ hread
    intro j hj
    rw [lookup_writeSlot_ne (show b ≠ j by omega), lookup_extend hpre hj]

/--
C8, witnessed on the tree of the repository's `TestCopyDeep`:
`Nodes{NodeText("one"), Nodes{NodeText("two"), NodeOrdinalParam(3)},
NodeParens{NodeText("four")}}` laid out in a three-slice heap.
-/
theorem c8_copy_isolation_witness :
    readSlice 10
      [[.leaf (.text ("two".toList)), .leaf (.ordinalParam 3)],
       [.leaf (.text ("four".toList))],
       [.leaf (.text ("one".toList)), .seqComp 0, .comp .parens 1]] 2 =
      some [.text ("one".toList), .seq [.text ("two".toList), .ordinalParam 3],
            .parens [.text ("four".toList)]] ∧
    copySlice 8
      [[.leaf (.text ("two".toList)), .leaf (.ordinalParam 3)],
       [.leaf (.text ("four".toList))],
       [.leaf (.text ("one".toList)), .seqComp 0, .comp .parens 1]] 2 =
      some ([[.leaf (.text ("two".toList)), .leaf (.ordinalParam 3)],
             [.leaf (.text ("four".toList))],
             [.leaf (.text ("one".toList)), .seqComp 0, .comp .parens 1],
             [.leaf (.text ("two".toList)), .leaf (.ordinalParam 3)],
             [.leaf (.text ("four".toList))],
             [.leaf (.text ("one".toList)), .seqComp 3, .comp .parens 4]], 5) ∧
    (readSlice 10
        [[.leaf (.text ("two".toList)), .leaf (.ordinalParam 3)],
         [.leaf (.text ("four".toList))],
         [.leaf (.text ("one".toList)), .seqComp 0, .comp .parens 1],
         [.leaf (.text ("two".toList)), .leaf (.ordinalParam 3)],
         [.leaf (.text ("four".toList))],
         [.leaf (.text ("one".toList)), .seqComp 3, .comp .parens 4]] 5 =
      some [.text ("one".toList), .seq [.text ("two".toList), .ordinalParam 3],
            .parens [.text ("four".toList)]]) := by
  refine ⟨rfl, rfl, ?_⟩
  exact (c8_copy_isolation
    [[.leaf (.text ("two".toList)), .leaf (.ordinalParam 3)],
     [.leaf (.text ("four".toList))],
     [.leaf (.text ("one".toList)), .seqComp 0, .comp .parens 1]] 2
    [.text ("one".toList), .seq [.text ("two".toList), .ordinalParam 3],
     .parens [.text ("four".toList)]] 10 8
    [[.leaf (.text ("two".toList)), .leaf (.ordinalParam 3)],
     [.leaf (.text ("four".toList))],
     [.leaf (.text ("one".toList)), .seqComp 0, .comp .parens 1],
     [.leaf (.text ("two".toList)), .leaf (.ordinalParam 3)],
     [.leaf (.text ("four".toList))],
     [.leaf (.text ("one".toList)), .seqComp 3, .comp .parens 4]] 5 rfl rfl).1

/--
C9: parsing is a total deterministic function whose work is bounded by
the input length: for every input, any fuel above the input length makes
the fuelled parse loop return (it never exhausts its fuel, because every
token consumes at least one character), and the result is the same for
every such fuel — the value `Parse` returns, which is either a complete
tree or a fatal error.
-/
theorem c9_parse_terminates (s : Str) (fuel : Nat) (h : s.length < fuel) :
    parseGo fuel s [] = some (Parse s) :=
  parseGo_eq_parse s fuel h

/-- C9, witnessed at input `a]` with fuel 17. -/
theorem c9_parse_terminates_witness :
    ("a]".toList : Str).length < 17 ∧
    parseGo 17 ("a]".toList) [] = some (Parse ("a]".toList)) :=
  ⟨by decide, c9_parse_terminates ("a]".toList) 17 (by decide)⟩

/--
C10: `FirstLeaf` descends only through first children (and `LastLeaf`
through last children) and never backtracks to a sibling: on
`Nodes{NodeParens{}, NodeText("x")}` it returns nil even though the
sequence contains the leaf Text "x" elsewhere (the deep traversal visits
it); symmetrically for `LastLeaf`; and the first-element restriction
holds for every sequence.
-/
theorem c10_first_leaf :
    FirstLeaf [.parens [], .text ['x']] = .null ∧
    LastLeaf [.text ['x'], .parens []] = .null ∧
    (∀ (n : Node) (rest : List Node), FirstLeaf (n :: rest) = NodeFirstLeaf n) ∧
    visitsList [.parens [], .text ['x']] = [.text ['x']] :=
  ⟨rfl, rfl, fun _ _ => rfl, rfl⟩

end Sqlp
